import Mathlib

/-!
Shallow embedding of the Inverted Multi-Index (IMI) search engine of
`src/Indexes/imi_index.py`, together with theorems settling the frozen
claims about its natural-language specification.

Modelling conventions:

* Real-valued scores (cosine distances) are represented by rationals `ℚ`.
  The claims under study concern selection, ordering and bookkeeping, never
  the numeric value of a particular cosine, so the distance rows computed by
  `scipy.spatial.distance.cdist` appear as parameters of the embedded
  operations (`d1`, `d2`, `repDist`, `score`).
* `np.argpartition(a, k)[:k]` followed by `np.argsort` over the selected
  entries is modelled as the sorted selection of the `k` smallest entries of
  `a` under the lexicographic order on (value, position), i.e. with ties
  resolved towards the smaller position.
* `heapq.nsmallest(k, xs, key)` is modelled after its CPython
  implementation, which sorts decorated triples `(key x, arrival index, x)`:
  a stable selection of the `k` smallest elements by key.
* Fallible native operations are not reached under the hypotheses of the
  theorems below; where a NumPy call has a validity precondition (for
  example the `kth` bound of `argpartition`) the corresponding theorem
  carries that precondition as a hypothesis.
-/

namespace IMI

/-- Lexicographic comparison of position-decorated elements by
(`key` value, position); this order models NumPy's partial selection
(`argpartition` followed by `argsort`) and CPython's `heapq.nsmallest`. -/
def keyLe {α : Type} (key : α → ℚ) (a b : ℕ × α) : Prop :=
  key a.2 < key b.2 ∨ (key a.2 = key b.2 ∧ a.1 ≤ b.1)

/-- Strict version of `keyLe`: smaller value, or equal value and strictly
smaller position. -/
def keyLt {α : Type} (key : α → ℚ) (a b : ℕ × α) : Prop :=
  key a.2 < key b.2 ∨ (key a.2 = key b.2 ∧ a.1 < b.1)

instance keyLe.instDecidableRel {α : Type} (key : α → ℚ) :
    DecidableRel (keyLe key) := fun a b =>
  decidable_of_iff (key a.2 < key b.2 ∨ (key a.2 = key b.2 ∧ a.1 ≤ b.1)) Iff.rfl

instance keyLt.instDecidableRel {α : Type} (key : α → ℚ) :
    DecidableRel (keyLt key) := fun a b =>
  decidable_of_iff (key a.2 < key b.2 ∨ (key a.2 = key b.2 ∧ a.1 < b.1)) Iff.rfl

instance keyLe.instIsTotal {α : Type} (key : α → ℚ) :
    IsTotal (ℕ × α) (keyLe key) := by
  constructor
  intro a b
  rcases lt_trichotomy (key a.2) (key b.2) with h | h | h
  · exact Or.inl (Or.inl h)
  · rcases le_total a.1 b.1 with h2 | h2
    · exact Or.inl (Or.inr ⟨h, h2⟩)
    · exact Or.inr (Or.inr ⟨h.symm, h2⟩)
  · exact Or.inr (Or.inl h)

instance keyLe.instIsTrans {α : Type} (key : α → ℚ) :
    IsTrans (ℕ × α) (keyLe key) := by
  constructor
  intro a b c hab hbc
  rcases hab with h1 | ⟨e1, p1⟩
  · rcases hbc with h2 | ⟨e2, _⟩
    · exact Or.inl (h1.trans h2)
    · exact Or.inl (e2 ▸ h1)
  · rcases hbc with h2 | ⟨e2, p2⟩
    · exact Or.inl (lt_of_le_of_lt e1.le h2)
    · exact Or.inr ⟨e1.trans e2, p1.trans p2⟩

theorem keyLt_of_keyLe_of_fst_ne {α : Type} {key : α → ℚ} {a b : ℕ × α}
    (h : keyLe key a b) (hne : a.1 ≠ b.1) : keyLt key a b := by
  rcases h with h | ⟨e, p⟩
  · exact Or.inl h
  · exact Or.inr ⟨e, lt_of_le_of_ne p hne⟩

/-- Position-decorated stable sort of a list by `key` value: the model of
sorting with NumPy/CPython tie behaviour made explicit.  The result is a
permutation of `l.enum`, sorted under `keyLe key`. -/
def stableSort {α : Type} (key : α → ℚ) (l : List α) : List (ℕ × α) :=
  l.enum.insertionSort (keyLe key)

theorem stableSort_perm_enum {α : Type} (key : α → ℚ) (l : List α) :
    (stableSort key l).Perm l.enum :=
  List.perm_insertionSort _ _

theorem stableSort_sorted {α : Type} (key : α → ℚ) (l : List α) :
    List.Sorted (keyLe key) (stableSort key l) :=
  List.sorted_insertionSort _ _

theorem stableSort_length {α : Type} (key : α → ℚ) (l : List α) :
    (stableSort key l).length = l.length :=
  ((stableSort_perm_enum key l).length_eq).trans List.enum_length

theorem mem_stableSort {α : Type} {key : α → ℚ} {l : List α} {x : ℕ × α} :
    x ∈ stableSort key l ↔ x ∈ l.enum :=
  (stableSort_perm_enum key l).mem_iff

/-- Elements of `l.enum` are wellformed: the position is in range and the
payload is the list entry at that position. -/
theorem mem_enum_wf {α : Type} {l : List α} {x : ℕ × α} (h : x ∈ l.enum)
    (d : α) : x.1 < l.length ∧ l.getD x.1 d = x.2 := by
  rw [List.mem_enum_iff_getElem?] at h
  have hlt : x.1 < l.length := by
    by_contra hge
    rw [List.getElem?_eq_none (le_of_not_lt hge)] at h
    exact Option.noConfusion h
  refine ⟨hlt, ?_⟩
  rw [List.getD_eq_getElem?_getD, h]
  rfl

theorem enum_mk_mem {α : Type} {l : List α} {f : ℕ} (h : f < l.length)
    (d : α) : (f, l.getD f d) ∈ l.enum := by
  rw [List.mem_enum_iff_getElem?, List.getD_eq_getElem?_getD,
    List.getElem?_eq_getElem h]
  rfl

theorem stableSort_fst_nodup {α : Type} (key : α → ℚ) (l : List α) :
    ((stableSort key l).map Prod.fst).Nodup := by
  have hp : ((stableSort key l).map Prod.fst).Perm (l.enum.map Prod.fst) :=
    (stableSort_perm_enum key l).map Prod.fst
  rw [hp.nodup_iff, List.enum_map_fst]
  exact List.nodup_range _

theorem stableSort_map_snd_perm {α : Type} (key : α → ℚ) (l : List α) :
    ((stableSort key l).map Prod.snd).Perm l := by
  have hp := (stableSort_perm_enum key l).map Prod.snd
  rwa [List.enum_map_snd] at hp

/-- Model of `a[np.argpartition(a, k)[:k][np.argsort(...)]]` at the level of
decorated entries: the `k` lexicographically smallest (value, position)
pairs, in ascending order. -/
def takeSmallest {α : Type} (key : α → ℚ) (l : List α) (k : ℕ) :
    List (ℕ × α) :=
  (stableSort key l).take k

theorem takeSmallest_length {α : Type} (key : α → ℚ) (l : List α) (k : ℕ) :
    (takeSmallest key l k).length = min k l.length := by
  rw [takeSmallest, List.length_take, stableSort_length]

theorem takeSmallest_sorted {α : Type} (key : α → ℚ) (l : List α) (k : ℕ) :
    List.Sorted (keyLe key) (takeSmallest key l k) :=
  (stableSort_sorted key l).sublist (List.take_sublist _ _)

theorem takeSmallest_subset_enum {α : Type} {key : α → ℚ} {l : List α}
    {k : ℕ} {x : ℕ × α} (h : x ∈ takeSmallest key l k) : x ∈ l.enum :=
  mem_stableSort.mp (List.mem_of_mem_take h)

/-- Split property of the stable selection: everything selected is
`keyLe`-below everything left behind. -/
theorem takeSmallest_le_drop {α : Type} (key : α → ℚ) (l : List α) (k : ℕ) :
    ∀ x ∈ takeSmallest key l k, ∀ y ∈ (stableSort key l).drop k,
      keyLe key x y := by
  have hs := stableSort_sorted key l
  rw [List.Sorted, ← List.take_append_drop k (stableSort key l),
    List.pairwise_append] at hs
  exact hs.2.2

/-- Membership in the selection, transported along positions: a position `f`
is selected iff its decorated pair is in the selected prefix. -/
theorem mem_takeSmallest_fst_iff {α : Type} {key : α → ℚ} {l : List α}
    {k f : ℕ} (d : α) (hf : f < l.length) :
    f ∈ (takeSmallest key l k).map Prod.fst ↔
      (f, l.getD f d) ∈ takeSmallest key l k := by
  constructor
  · intro h
    rcases List.mem_map.mp h with ⟨x, hx, hfst⟩
    have hwf := mem_enum_wf (takeSmallest_subset_enum hx) d
    have : x = (f, l.getD f d) := by
      rcases x with ⟨a, b⟩
      simp only at hfst
      subst hfst
      exact congrArg _ hwf.2.symm
    rwa [this] at hx
  · intro h
    exact List.mem_map.mpr ⟨(f, l.getD f d), h, rfl⟩

/-- Completeness of the stable selection: a selected position is strictly
lexicographically below every unselected in-range position. -/
theorem takeSmallest_complete {α : Type} (key : α → ℚ) (l : List α) (k : ℕ)
    (d : α) {f g : ℕ}
    (hf : f ∈ (takeSmallest key l k).map Prod.fst)
    (hg : g < l.length) (hgn : g ∉ (takeSmallest key l k).map Prod.fst) :
    keyLt key (f, l.getD f d) (g, l.getD g d) := by
  have hflt : f < l.length := by
    rcases List.mem_map.mp hf with ⟨x, hx, hfst⟩
    exact hfst ▸ (mem_enum_wf (takeSmallest_subset_enum hx) d).1
  have hfmem : (f, l.getD f d) ∈ takeSmallest key l k :=
    (mem_takeSmallest_fst_iff d hflt).mp hf
  -- the pair for g is in the sorted list, hence in the taken or dropped part
  have hgenum : (g, l.getD g d) ∈ l.enum := enum_mk_mem hg d
  have hgsort : (g, l.getD g d) ∈ stableSort key l :=
    mem_stableSort.mpr hgenum
  have hgsplit : (g, l.getD g d) ∈
      (stableSort key l).take k ++ (stableSort key l).drop k := by
    rw [List.take_append_drop]
    exact hgsort
  have hgdrop : (g, l.getD g d) ∈ (stableSort key l).drop k := by
    rcases List.mem_append.mp hgsplit with h | h
    · exact absurd ((mem_takeSmallest_fst_iff d hg).mpr h) hgn
    · exact h
  have hle := takeSmallest_le_drop key l k _ hfmem _ hgdrop
  refine keyLt_of_keyLe_of_fst_ne hle ?_
  intro hfg
  simp only at hfg
  subst hfg
  exact hgn hf

/-! Embedded operations of `IMIIndex` (`src/Indexes/imi_index.py`). -/

/-- Model of `a[np.argpartition(a, k)[:k]]` reordered by `np.argsort` over
the selected values (lines 145-146 and 168-169 of the source): the positions
of the `k` smallest entries of `l`, in ascending order of value, ties
towards the smaller position. -/
def selectSmallest (l : List ℚ) (k : ℕ) : List ℕ :=
  (takeSmallest id l k).map Prod.fst

/-- Row-major flattening of the broadcast sum
`combined_distances = subspace1_distances[:, None] + subspace2_distances[None, :]`
(line 138 of the source), as flattened by `ravel()` on line 141. -/
def flatD (d1 d2 : List ℚ) : List ℚ :=
  (d1.map (fun a => d2.map (fun b => a + b))).flatten

/-- Decoding of a flat position into a centroid pair through the hard-coded
`np.indices((256, 256)).reshape(2, -1).T` grid of line 142:
`centroid_pairs[f] = (f / 256, f % 256)`. -/
def pairDecode (f : ℕ) : ℕ × ℕ :=
  (f / 256, f % 256)

/-- Planner flat positions: `top_indices` of lines 145-146. -/
def planFlats (d1 d2 : List ℚ) (nprobe : ℕ) : List ℕ :=
  selectSmallest (flatD d1 d2) (nprobe * nprobe)

/-- Planner output `cluster_pairs = centroid_pairs[top_indices]`, line 149. -/
def planPairs (d1 d2 : List ℚ) (nprobe : ℕ) : List (ℕ × ℕ) :=
  (planFlats d1 d2 nprobe).map pairDecode

/-- Representative pruning step (lines 155-170).  `repDist p` stands for
`cdist(query_vector, concat(centroids1[p.1], centroids2[p.2]), "cosine")`,
the cosine distance of the query to the representative vector of pair `p`,
kept abstract.  `keep_count = min(pruning_factor, len(cluster_pairs)) - 1`
is line 167; the ℕ-truncated subtraction agrees with Python because
`min(pruning_factor, len(cluster_pairs)) ≥ 1` whenever both are ≥ 1. -/
def prunedPairs (clusterPairs : List (ℕ × ℕ)) (repDist : ℕ × ℕ → ℚ)
    (pruningFactor : ℕ) : List (ℕ × ℕ) :=
  let repDistances := clusterPairs.map repDist
  let keepCount := min pruningFactor clusterPairs.length - 1
  (selectSmallest repDistances keepCount).map
    (fun i => clusterPairs.getD i (0, 0))

/-- Batch generator `batch_numbers` (lines 85-98): starting from the head of
the (sorted) candidate list, each batch is the run of entries not exceeding
`numbers[start_index] + max_difference` — NumPy
`searchsorted(numbers, min_element + max_difference, side="right")` returns
the first position holding a strictly larger entry — and at most
`batch_limit` batches are produced. -/
def batchNumbers (maxDifference : ℕ) : List ℕ → ℕ → List (List ℕ)
  | _, 0 => []
  | [], _ + 1 => []
  | m :: rest, batchLimit + 1 =>
    (m :: rest).takeWhile (fun x => decide (x ≤ m + maxDifference)) ::
      batchNumbers maxDifference
        ((m :: rest).dropWhile (fun x => decide (x ≤ m + maxDifference)))
        batchLimit

/-- Per-batch scorer `process_batch` (lines 100-117).  `score id` stands for
the cosine distance between the query and database vector `id` after the
half-precision narrowing; the sequential block read and row gather of lines
101-107 deliver exactly the vectors of `batch`, so the distances row is
`batch.map score`.  If at most `top_k` rows were scored, all pairs are
returned unsorted (lines 113-114); otherwise the `top_k` smallest are
returned in ascending order (lines 115-117). -/
def processBatch (score : ℕ → ℚ) (topK : ℕ) (batch : List ℕ) :
    List (ℚ × ℕ) :=
  let distances := batch.map score
  if distances.length ≤ topK then distances.zip batch
  else (selectSmallest distances topK).map
    (fun i => (distances.getD i 0, batch.getD i 0))

/-- Global merger `heapq.nsmallest(top_k, all_candidates, key=lambda x: x[0])`
of line 196, modelled after CPython's implementation (which sorts decorated
`(key, arrival position, element)` triples): the stable selection of the
`top_k` smallest scored pairs by distance, ties towards the earlier position
in `allCandidates`. -/
def mergeTopK (topK : ℕ) (allCandidates : List (ℚ × ℕ)) : List (ℚ × ℕ) :=
  (takeSmallest Prod.fst allCandidates topK).map Prod.snd

/-- Fan-in and result extraction (lines 189-200): concatenate the batch
outputs in their completion order, merge, and split the merged list into the
two parallel result arrays. -/
def searchCollect (batchOutputs : List (List (ℚ × ℕ))) (topK : ℕ) :
    List ℚ × List ℕ :=
  let tops := mergeTopK topK batchOutputs.flatten
  (tops.map Prod.fst, tops.map Prod.snd)

/-- Candidate gathering and batch scoring of `search` (lines 119-194):
planner, representative pruner, inverted-list gather (`invList p` models the
id window returned by `load_index_inverted_lists` for pair `p`), ascending
sort of the candidate ids, batching, and per-batch scoring.  The returned
batch outputs are handed to the merger in some completion order. -/
def searchBatchOutputs (d1 d2 : List ℚ) (repDist : ℕ × ℕ → ℚ)
    (score : ℕ → ℚ) (invList : ℕ × ℕ → List ℕ)
    (topK nprobe maxDifference batchLimit pruningFactor : ℕ) :
    List (List (ℚ × ℕ)) :=
  let clusterPairs := planPairs d1 d2 nprobe
  let pruned := prunedPairs clusterPairs repDist pruningFactor
  let candidateVectors := (pruned.map invList).flatten
  let sortedCandidates := candidateVectors.insertionSort (fun a b => a ≤ b)
  (batchNumbers maxDifference sortedCandidates batchLimit).map
    (processBatch score topK)

/-- Full `search` (lines 83-200) with the batch completion order equal to
submission order.  The `ThreadPoolExecutor` may deliver the batch outputs in
any order; `searchCollect` applied to a permutation of
`searchBatchOutputs ...` describes the other completion orders. -/
def search (d1 d2 : List ℚ) (repDist : ℕ × ℕ → ℚ) (score : ℕ → ℚ)
    (invList : ℕ × ℕ → List ℕ)
    (topK nprobe maxDifference batchLimit pruningFactor : ℕ) :
    List ℚ × List ℕ :=
  searchCollect
    (searchBatchOutputs d1 d2 repDist score invList topK nprobe
      maxDifference batchLimit pruningFactor) topK

/-! Build-time operations: the `train` list initialisation and the `add`
assignment loop. -/

/-- First-minimum index `np.argmin(row)` over positions `0, …, C-1` (the
`axis=1` argmin of lines 73-74): scanning left to right, the running best is
replaced only by a strictly smaller value, so ties resolve to the lowest
index. -/
def argminIdx (d : ℕ → ℚ) (C : ℕ) : ℕ :=
  (List.range C).foldl (fun best j => if d j < d best then j else best) 0

/-- Centroid-pair assignment of vector `v` (lines 73-74): per-subspace
first-minimum of the cosine-distance rows `dist1 v` and `dist2 v`, the rows
of `cdist(batch_subspace1, self.centroids1, "cosine")` and the side-2
analogue, kept abstract. -/
def assignPair (dist1 dist2 : ℕ → ℕ → ℚ) (C : ℕ) (v : ℕ) : ℕ × ℕ :=
  (argminIdx (dist1 v) C, argminIdx (dist2 v) C)

/-- Inner assignment loop of `add` (lines 77-78): append each id to the
inverted list of its assigned pair. -/
def addLoop (assign : ℕ → ℕ × ℕ) :
    List ℕ → ((ℕ × ℕ) → List ℕ) → ((ℕ × ℕ) → List ℕ)
  | [], m => m
  | v :: vs, m =>
    addLoop assign vs
      (fun p => if p = assign v then m p ++ [v] else m p)

/-- Batch id ranges of the outer loop of `add` (lines 65-66):
`range(0, num_vectors, batch_size)` with
`end_idx = min(start_idx + batch_size, num_vectors)`; the batch starting at
`start_idx` holds the ids `start_idx, …, end_idx - 1`. -/
def chunkRanges (batchSize : ℕ) (start n : ℕ) : List (List ℕ) :=
  if _h : start < n ∧ 0 < batchSize then
    List.range' start (min (start + batchSize) n - start) ::
      chunkRanges batchSize (start + batchSize) n
  else []
termination_by n - start
decreasing_by omega

/-- Result of `train` (lines 51-53) followed by `add` (lines 57-81): starting
from the empty inverted lists created by `train`, assign every id in
`[0, N)`, processed in batches of `batchSize` (500000 in the source). -/
def addAll (assign : ℕ → ℕ × ℕ) (N batchSize : ℕ) : (ℕ × ℕ) → List ℕ :=
  (chunkRanges batchSize 0 N).foldl (fun m c => addLoop assign c m)
    (fun _ => [])

/-! The index handle and `build_index`. -/

/-- The `IMIIndex` handle state touched by `build_index`: the two centroid
sets (`None` before training), the inverted lists, and the configuration
attributes set by `__init__` (lines 23-32).  The stored vectors and the path
are abstracted to their identities. -/
structure IMIIndexHandle where
  nlist : ℕ
  dimension : ℕ
  subspaceDim : ℕ
  centroids1 : Option (List (List ℚ))
  centroids2 : Option (List (List ℚ))
  indexInvertedLists : List ((ℕ × ℕ) × List ℕ)
  indexPath : Option ℕ
deriving DecidableEq

/-- Side effects a build could perform, for the frame statement of
`build_index`. -/
inductive BuildEffect where
  | trainCall : BuildEffect
  | addCall : BuildEffect
  | saveIndexCall : BuildEffect
  | fileRead : BuildEffect
  | fileWrite : BuildEffect
deriving DecidableEq

/-- Method `build_index` (lines 203-214).  After the existence check the
function returns `self` on both paths: the `self.load_index` call of line
206 is commented out, and the `train`/`add`/`save_index` calls of lines
211-213 sit after the unconditional `return self` of line 209, so they are
unreachable.  The boolean argument models `os.path.exists(self.index_path)`;
the effect list records every side effect performed. -/
def build_index (self : IMIIndexHandle) (indexFileExists : Bool) :
    IMIIndexHandle × List BuildEffect :=
  if indexFileExists then (self, []) else (self, [])

/-! Serialisation (`restructure_pickle`) and the offset lookup of
`load_index_inverted_lists`. -/

/-- Lexicographic key grid `(i, j)` for `0 ≤ i, j < 256`: the insertion
order of the keys of `index_inverted_lists` as created by `train`
(lines 51-53), which is the dict iteration order of line 253. -/
def lexKeys : List (ℕ × ℕ) :=
  ((List.range 256).map (fun i => (List.range 256).map (fun j => (i, j)))).flatten

/-- Fold step of the serialisation loop of `restructure_pickle`
(lines 253-258): append the list to the id run and set record
`key[0] * 256 + key[1]` of the offset table to `(start, length)`. -/
def restructureStep (acc : List ℕ × List (ℕ × ℕ)) (kv : (ℕ × ℕ) × List ℕ) :
    List ℕ × List (ℕ × ℕ) :=
  (acc.1 ++ kv.2, acc.2.set (kv.1.1 * 256 + kv.1.2) (acc.1.length, kv.2.length))

/-- Serialisation core of `restructure_pickle` (lines 250-258): from the
items of `index_inverted_lists` in dict insertion order, produce
`(concatenated_values, index_offsets)`, the offset table being initialised
to `np.zeros((256 * 256, 2), dtype=np.int32)`. -/
def restructurePickle (items : List ((ℕ × ℕ) × List ℕ)) :
    List ℕ × List (ℕ × ℕ) :=
  items.foldl restructureStep ([], List.replicate (256 * 256) (0, 0))

/-- Offset-table record number used by `load_index_inverted_lists`
(line 292): `index = key[0] * 256 + key[1]`, independent of `nlist`. -/
def recordIndex (i j : ℕ) : ℕ :=
  i * 256 + j

/-- Method `load_index_inverted_lists` (lines 280-301): for each requested
key, read record `recordIndex i j` of the offset table and return the
id-run window `[start, start + length)` (the `np.memmap` slice of line 296;
for `length = 0` the empty array of line 299). -/
def loadInvertedLists (offsets : List (ℕ × ℕ)) (values : List ℕ)
    (keys : List (ℕ × ℕ)) : List ((ℕ × ℕ) × List ℕ) :=
  keys.map (fun p =>
    ((p.1, p.2), ((values.drop (offsets.getD (recordIndex p.1 p.2) (0, 0)).1).take
      (offsets.getD (recordIndex p.1 p.2) (0, 0)).2)))

/-! Helper lemmas about the embedded operations. -/

theorem getD_indep {α : Type} {l : List α} {n : ℕ} (h : n < l.length)
    (d d' : α) : l.getD n d = l.getD n d' := by
  rw [List.getD_eq_getElem?_getD, List.getD_eq_getElem?_getD,
    List.getElem?_eq_getElem h]
  rfl

theorem selectSmallest_length (l : List ℚ) (k : ℕ) :
    (selectSmallest l k).length = min k l.length := by
  rw [selectSmallest, List.length_map, takeSmallest_length]

theorem selectSmallest_zero (l : List ℚ) : selectSmallest l 0 = [] := by
  rw [selectSmallest, takeSmallest, List.take_zero, List.map_nil]

theorem selectSmallest_mem_lt {l : List ℚ} {k f : ℕ}
    (h : f ∈ selectSmallest l k) : f < l.length := by
  rcases List.mem_map.mp h with ⟨x, hx, hfst⟩
  exact hfst ▸ (mem_enum_wf (takeSmallest_subset_enum hx) 0).1

theorem selectSmallest_nodup (l : List ℚ) (k : ℕ) :
    (selectSmallest l k).Nodup := by
  have : selectSmallest l k = ((stableSort id l).map Prod.fst).take k := by
    rw [selectSmallest, takeSmallest, List.map_take]
  rw [this]
  exact (stableSort_fst_nodup id l).sublist (List.take_sublist _ _)

/-- The values-and-positions ordering along a stable selection, read off at
the level of positions and `getD` values. -/
theorem selectSmallest_pairwise (l : List ℚ) (k : ℕ) :
    (selectSmallest l k).Pairwise
      (fun f g => l.getD f 0 < l.getD g 0 ∨ (l.getD f 0 = l.getD g 0 ∧ f < g)) := by
  rw [selectSmallest, List.pairwise_map]
  have hnd : (takeSmallest id l k).Pairwise (fun a b => a.1 ≠ b.1) := by
    have : ((takeSmallest id l k).map Prod.fst).Nodup := by
      have : (takeSmallest id l k).map Prod.fst =
          ((stableSort id l).map Prod.fst).take k := by
        rw [takeSmallest, List.map_take]
      rw [this]
      exact (stableSort_fst_nodup id l).sublist (List.take_sublist _ _)
    rwa [List.Nodup, List.pairwise_map] at this
  have hs := takeSmallest_sorted id l k
  rw [List.Sorted] at hs
  refine (hs.and hnd).imp_of_mem ?_
  intro a b ha hb hab
  have hwa := mem_enum_wf (takeSmallest_subset_enum ha) 0
  have hwb := mem_enum_wf (takeSmallest_subset_enum hb) 0
  rcases keyLt_of_keyLe_of_fst_ne hab.1 hab.2 with h | ⟨e, p⟩
  · exact Or.inl (by rw [hwa.2, hwb.2]; exact h)
  · exact Or.inr ⟨by rw [hwa.2, hwb.2]; exact e, p⟩

/-- Completeness at position level: a selected position beats every
unselected in-range position under the (value, position) order. -/
theorem selectSmallest_complete (l : List ℚ) (k : ℕ) {f g : ℕ}
    (hf : f ∈ selectSmallest l k) (hg : g < l.length)
    (hgn : g ∉ selectSmallest l k) :
    l.getD f 0 < l.getD g 0 ∨ (l.getD f 0 = l.getD g 0 ∧ f < g) := by
  have := takeSmallest_complete id l k 0 (f := f) (g := g) hf hg hgn
  rcases this with h | ⟨e, p⟩
  · exact Or.inl h
  · exact Or.inr ⟨e, p⟩

theorem flatD_length (d1 d2 : List ℚ) :
    (flatD d1 d2).length = d1.length * d2.length := by
  induction d1 with
  | nil => simp [flatD]
  | cons a d1 IH =>
    have hsplit : flatD (a :: d1) d2 = (d2.map fun b => a + b) ++ flatD d1 d2 :=
      rfl
    rw [hsplit, List.length_append, List.length_map, IH, List.length_cons]
    ring

/-- Flat-position formula for the broadcast sum: entry `f` of the flattened
`C₁ × C₂` grid is `d1[f / C₂] + d2[f % C₂]`. -/
theorem flatD_getD (d1 d2 : List ℚ) :
    ∀ f, f < d1.length * d2.length →
      (flatD d1 d2).getD f 0 =
        d1.getD (f / d2.length) 0 + d2.getD (f % d2.length) 0 := by
  induction d1 with
  | nil => intro f hf; simp at hf
  | cons a d1 IH =>
    intro f hf
    have hB : 0 < d2.length := by
      rcases Nat.eq_zero_or_pos d2.length with h0 | h0
      · rw [h0, Nat.mul_zero] at hf; exact absurd hf (Nat.not_lt_zero f)
      · exact h0
    have hsplit : flatD (a :: d1) d2 = (d2.map fun b => a + b) ++ flatD d1 d2 :=
      rfl
    rw [hsplit]
    rcases lt_or_le f d2.length with hc | hc
    · have hlm : f < (d2.map (fun b => a + b)).length := by
        rwa [List.length_map]
      rw [List.getD_append _ _ _ _ hlm, Nat.div_eq_of_lt hc,
        Nat.mod_eq_of_lt hc]
      have : (d2.map (fun b => a + b)).getD f (a + 0) = a + d2.getD f 0 :=
        List.getD_map d2 0 (fun b => a + b)
      rw [getD_indep hlm 0 (a + 0), this]
      simp
    · have hlm : (d2.map (fun b => a + b)).length ≤ f := by
        rwa [List.length_map]
      rw [List.getD_append_right _ _ _ _ hlm, List.length_map]
      have hrec : f - d2.length < d1.length * d2.length := by
        have hx : (d1.length + 1) * d2.length =
            d1.length * d2.length + d2.length := by ring
        rw [List.length_cons, hx] at hf
        omega
      rw [IH (f - d2.length) hrec]
      have hdiv : f / d2.length = (f - d2.length) / d2.length + 1 := by
        rcases Nat.exists_eq_add_of_le hc with ⟨m, rfl⟩
        rw [Nat.add_sub_cancel_left, Nat.add_comm, Nat.add_div_right _ hB]
      have hmod : f % d2.length = (f - d2.length) % d2.length := by
        rcases Nat.exists_eq_add_of_le hc with ⟨m, rfl⟩
        rw [Nat.add_sub_cancel_left, Nat.add_mod_left]
      rw [hdiv, hmod, List.getD_cons_succ]

theorem batchNumbers_nil (maxDifference batchLimit : ℕ) :
    batchNumbers maxDifference [] batchLimit = [] := by
  cases batchLimit <;> rfl

theorem batchNumbers_zero (maxDifference : ℕ) (s : List ℕ) :
    batchNumbers maxDifference s 0 = [] := by
  cases s <;> rfl

/-- The first entry surviving `dropWhile` fails the predicate. -/
theorem dropWhile_head_false {α : Type} [Inhabited α] (p : α → Bool) :
    ∀ l : List α, l.dropWhile p = [] ∨ p ((l.dropWhile p).head!) = false := by
  intro l
  induction l with
  | nil => exact Or.inl rfl
  | cons a t IH =>
    rw [List.dropWhile_cons]
    by_cases h : p a
    · rw [if_pos h]
      exact IH
    · rw [if_neg h]
      exact Or.inr (eq_false_of_ne_true h)

/-- Behaviour of the batch generator (`batch_numbers`) on a sorted candidate
list: at most `L` batches; their concatenation is a prefix of the input; all
batches are nonempty runs contained in the closed interval
`[head, head + maxd]` starting at their own first id; consecutive batches
are separated by a gap larger than `maxd` above the previous batch head
(so each batch is the maximal such run); and ids are dropped only when the
batch cap is reached. -/
theorem batchNumbers_spec (maxd : ℕ) :
    ∀ (L : ℕ) (s : List ℕ), List.Sorted (fun a b => a ≤ b) s →
      (batchNumbers maxd s L).length ≤ L ∧
      (∃ tail, (batchNumbers maxd s L).flatten ++ tail = s) ∧
      (∀ b ∈ batchNumbers maxd s L, b ≠ []) ∧
      (∀ b ∈ batchNumbers maxd s L, ∀ x ∈ b,
        b.head! ≤ x ∧ x ≤ b.head! + maxd) ∧
      (batchNumbers maxd s L).Chain'
        (fun b b2 => b.head! + maxd < b2.head!) ∧
      ((batchNumbers maxd s L).length < L →
        (batchNumbers maxd s L).flatten = s) := by
  intro L
  induction L with
  | zero =>
    intro s _
    rw [batchNumbers_zero]
    refine ⟨Nat.le_refl 0, ⟨s, rfl⟩, ?_, ?_, List.chain'_nil, ?_⟩
    · intro b hb
      cases hb
    · intro b hb
      cases hb
    · intro h
      simp at h
  | succ L IH =>
    intro s hs
    cases s with
    | nil =>
      rw [batchNumbers_nil]
      refine ⟨Nat.zero_le _, ⟨[], rfl⟩, ?_, ?_, List.chain'_nil, ?_⟩
      · intro b hb
        cases hb
      · intro b hb
        cases hb
      · intro _
        rfl
    | cons m rest =>
      have hstep : batchNumbers maxd (m :: rest) (L + 1) =
          (m :: rest).takeWhile (fun x => decide (x ≤ m + maxd)) ::
            batchNumbers maxd
              ((m :: rest).dropWhile (fun x => decide (x ≤ m + maxd))) L :=
        rfl
      have hpm : (fun x => decide (x ≤ m + maxd)) m = true := by
        simp
      have hsorted2 : List.Sorted (fun a b : ℕ => a ≤ b)
          ((m :: rest).dropWhile (fun x => decide (x ≤ m + maxd))) :=
        List.Pairwise.sublist (List.dropWhile_sublist _) hs
      obtain ⟨hlen, ⟨tail0, htail0⟩, hne, hspan, hchain, hfull⟩ :=
        IH ((m :: rest).dropWhile (fun x => decide (x ≤ m + maxd))) hsorted2
      have hbhead : (m :: rest).takeWhile (fun x => decide (x ≤ m + maxd)) =
          m :: rest.takeWhile (fun x => decide (x ≤ m + maxd)) :=
        List.takeWhile_cons_of_pos hpm
      have hmle : ∀ x ∈ m :: rest, m ≤ x := by
        intro x hx
        rcases List.mem_cons.mp hx with rfl | hx
        · exact le_refl x
        · exact (List.sorted_cons.mp hs).1 x hx
      refine ⟨?_, ?_, ?_, ?_, ?_, ?_⟩
      · rw [hstep, List.length_cons]
        omega
      · refine ⟨tail0, ?_⟩
        rw [hstep, List.flatten_cons, List.append_assoc, htail0,
          List.takeWhile_append_dropWhile]
      · intro b hb
        rw [hstep] at hb
        rcases List.mem_cons.mp hb with rfl | hb
        · rw [hbhead]
          exact List.cons_ne_nil _ _
        · exact hne b hb
      · intro b hb
        rw [hstep] at hb
        rcases List.mem_cons.mp hb with rfl | hb
        · intro x hx
          have hxs : x ∈ m :: rest :=
            (List.takeWhile_sublist _).subset hx
          have hxle : x ≤ m + maxd :=
            of_decide_eq_true
              (@List.mem_takeWhile_imp ℕ (fun x => decide (x ≤ m + maxd))
                (m :: rest) x hx)
          rw [hbhead]
          exact ⟨hmle x hxs, hxle⟩
        · exact hspan b hb
      · rw [hstep]
        refine List.chain'_cons'.mpr ⟨?_, hchain⟩
        intro y hy
        -- y is the first batch of the recursive call, so the dropped-to list
        -- is nonempty and y starts at its head, which fails the predicate
        rcases hL : (m :: rest).dropWhile (fun x => decide (x ≤ m + maxd)) with
          _ | ⟨m2, t2⟩
        · rw [hL, batchNumbers_nil] at hy
          cases hy
        · cases L with
          | zero =>
            rw [hL, batchNumbers_zero] at hy
            cases hy
          | succ L2 =>
            rw [hL] at hy
            have hunf : batchNumbers maxd (m2 :: t2) (L2 + 1) =
                (m2 :: t2).takeWhile (fun x => decide (x ≤ m2 + maxd)) ::
                  batchNumbers maxd ((m2 :: t2).dropWhile
                    (fun x => decide (x ≤ m2 + maxd))) L2 := rfl
            rw [hunf, List.head?_cons] at hy
            have hy2 : y = (m2 :: t2).takeWhile
                (fun x => decide (x ≤ m2 + maxd)) :=
              (Option.mem_some_iff.mp hy).symm
            have hyhead : y.head! = m2 := by
              rw [hy2, List.takeWhile_cons_of_pos (by simp)]
              rfl
            have hm2 : ¬ (m2 ≤ m + maxd) := by
              rcases dropWhile_head_false
                (fun x => decide (x ≤ m + maxd)) (m :: rest) with h | h
              · rw [hL] at h; cases h
              · rw [hL] at h
                simpa using h
            have hbh : ((m :: rest).takeWhile
                (fun x => decide (x ≤ m + maxd))).head! = m := by
              rw [hbhead]; rfl
            rw [hbh, hyhead]
            omega
      · intro hlt
        rw [hstep, List.flatten_cons]
        rw [hstep, List.length_cons] at hlt
        rw [hfull (by omega), List.takeWhile_append_dropWhile]

theorem mergeTopK_nil (topK : ℕ) : mergeTopK topK [] = [] := by
  simp [mergeTopK, takeSmallest, stableSort]

theorem mergeTopK_length (topK : ℕ) (l : List (ℚ × ℕ)) :
    (mergeTopK topK l).length = min topK l.length := by
  rw [mergeTopK, List.length_map, takeSmallest_length]

theorem mergeTopK_eq_take (topK : ℕ) (l : List (ℚ × ℕ)) :
    mergeTopK topK l = ((stableSort Prod.fst l).map Prod.snd).take topK := by
  rw [mergeTopK, takeSmallest, List.map_take]

theorem stableSort_snd_dist_sorted (l : List (ℚ × ℕ)) :
    ((stableSort Prod.fst l).map Prod.snd).Pairwise (fun a b => a.1 ≤ b.1) := by
  rw [List.pairwise_map]
  refine (stableSort_sorted Prod.fst l).imp ?_
  intro a b hab
  rcases hab with h | ⟨e, _⟩
  · exact le_of_lt h
  · exact le_of_eq e

theorem mergeTopK_dist_sorted (topK : ℕ) (l : List (ℚ × ℕ)) :
    (mergeTopK topK l).Pairwise (fun a b => a.1 ≤ b.1) := by
  rw [mergeTopK_eq_take]
  exact (stableSort_snd_dist_sorted l).sublist (List.take_sublist _ _)

/-- Pairwise-distinct distances make sorted-by-distance lists strictly
sorted. -/
theorem pairwise_lt_of_le_nodup {l : List (ℚ × ℕ)}
    (hle : l.Pairwise (fun a b => a.1 ≤ b.1))
    (hnd : (l.map Prod.fst).Nodup) :
    l.Pairwise (fun a b => a.1 < b.1) := by
  rw [List.Nodup, List.pairwise_map] at hnd
  refine (hle.and hnd).imp ?_
  intro a b h
  exact lt_of_le_of_ne h.1 h.2

/-- Permutation invariance of the global merger when all candidate
distances are pairwise distinct. -/
theorem mergeTopK_perm_of_nodup (topK : ℕ) {l1 l2 : List (ℚ × ℕ)}
    (hp : l1.Perm l2) (hd : (l1.map Prod.fst).Nodup) :
    mergeTopK topK l1 = mergeTopK topK l2 := by
  have hm : (((stableSort Prod.fst l1).map Prod.snd)).Perm
      ((stableSort Prod.fst l2).map Prod.snd) :=
    (stableSort_map_snd_perm _ l1).trans
      (hp.trans (stableSort_map_snd_perm _ l2).symm)
  have hd1 : (((stableSort Prod.fst l1).map Prod.snd).map Prod.fst).Nodup := by
    have hq := (stableSort_map_snd_perm Prod.fst l1).map Prod.fst
    exact hq.nodup_iff.mpr hd
  have hd2 : (((stableSort Prod.fst l2).map Prod.snd).map Prod.fst).Nodup := by
    have hq := (stableSort_map_snd_perm Prod.fst l2).map Prod.fst
    exact hq.nodup_iff.mpr ((hp.map Prod.fst).nodup_iff.mp hd)
  haveI : IsAntisymm (ℚ × ℕ) (fun a b => a.1 < b.1) :=
    ⟨fun a b h1 h2 => absurd (h1.trans h2) (lt_irrefl _)⟩
  have heq := List.eq_of_perm_of_sorted hm
    (pairwise_lt_of_le_nodup (stableSort_snd_dist_sorted l1) hd1)
    (pairwise_lt_of_le_nodup (stableSort_snd_dist_sorted l2) hd2)
  rw [mergeTopK_eq_take, mergeTopK_eq_take, heq]

/-- Fan-in invariance: permuting the batch completion order does not change
the result when all scored distances are pairwise distinct. -/
theorem searchCollect_perm_of_nodup (topK : ℕ)
    {bo1 bo2 : List (List (ℚ × ℕ))} (hp : bo1.Perm bo2)
    (hd : (bo1.flatten.map Prod.fst).Nodup) :
    searchCollect bo1 topK = searchCollect bo2 topK := by
  have hm := mergeTopK_perm_of_nodup topK hp.flatten hd
  rw [searchCollect, searchCollect, hm]

/-! Lemmas for the build-time assignment loop. -/

theorem argminIdx_succ (d : ℕ → ℚ) (C : ℕ) :
    argminIdx d (C + 1) =
      if d C < d (argminIdx d C) then C else argminIdx d C := by
  rw [argminIdx, argminIdx, List.range_succ, List.foldl_append]
  rfl

/-- The first-minimum characterisation of `np.argmin`: in range, minimal,
and strictly below every earlier position's value. -/
theorem argminIdx_spec (d : ℕ → ℚ) :
    ∀ C, 0 < C →
      argminIdx d C < C ∧ (∀ j < C, d (argminIdx d C) ≤ d j) ∧
        (∀ j < argminIdx d C, d (argminIdx d C) < d j) := by
  intro C
  induction C with
  | zero =>
    intro h
    exact absurd h (lt_irrefl 0)
  | succ C IH =>
    intro _
    rcases Nat.eq_zero_or_pos C with rfl | hC
    · have h1 : argminIdx d 1 = 0 := by
        rw [argminIdx, show List.range 1 = [0] from rfl]
        simp
      rw [h1]
      refine ⟨Nat.zero_lt_one, ?_, ?_⟩
      · intro j hj
        have : j = 0 := by omega
        subst this
        exact le_refl _
      · intro j hj
        exact absurd hj (by omega)
    · obtain ⟨hlt, hle, hstrict⟩ := IH hC
      rw [argminIdx_succ]
      by_cases hc : d C < d (argminIdx d C)
      · rw [if_pos hc]
        refine ⟨Nat.lt_succ_self C, ?_, ?_⟩
        · intro j hj
          rcases Nat.lt_succ_iff_lt_or_eq.mp hj with hj | rfl
          · exact le_trans (le_of_lt hc) (hle j hj)
          · exact le_refl _
        · intro j hj
          exact lt_of_lt_of_le hc (hle j hj)
      · rw [if_neg hc]
        refine ⟨Nat.lt_succ_of_lt hlt, ?_, hstrict⟩
        intro j hj
        rcases Nat.lt_succ_iff_lt_or_eq.mp hj with hj | rfl
        · exact hle j hj
        · exact le_of_not_lt hc

theorem addLoop_apply (assign : ℕ → ℕ × ℕ) :
    ∀ (L : List ℕ) (m : (ℕ × ℕ) → List ℕ) (p : ℕ × ℕ),
      addLoop assign L m p =
        m p ++ L.filter (fun v => decide (assign v = p)) := by
  intro L
  induction L with
  | nil =>
    intro m p
    simp [addLoop]
  | cons v vs IH =>
    intro m p
    rw [addLoop, IH, List.filter_cons]
    by_cases h : assign v = p
    · rw [if_pos h.symm, if_pos (decide_eq_true h), List.append_assoc,
        List.singleton_append]
    · rw [if_neg (fun hh => h hh.symm),
        if_neg (by simp [h] : ¬ (decide (assign v = p) = true))]

theorem foldl_addLoop (assign : ℕ → ℕ × ℕ) :
    ∀ (cs : List (List ℕ)) (m : (ℕ × ℕ) → List ℕ) (p : ℕ × ℕ),
      (cs.foldl (fun m c => addLoop assign c m) m) p =
        m p ++ cs.flatten.filter (fun v => decide (assign v = p)) := by
  intro cs
  induction cs with
  | nil =>
    intro m p
    simp
  | cons c cs IH =>
    intro m p
    rw [List.foldl_cons, IH, addLoop_apply, List.flatten_cons,
      List.filter_append, List.append_assoc]

theorem chunkRanges_flatten_aux (b : ℕ) (hb : 0 < b) :
    ∀ (k s n : ℕ), n - s ≤ k →
      (chunkRanges b s n).flatten = List.range' s (n - s) := by
  intro k
  induction k with
  | zero =>
    intro s n h
    rw [chunkRanges, dif_neg (by omega : ¬ (s < n ∧ 0 < b))]
    rw [show n - s = 0 by omega]
    rfl
  | succ k IH =>
    intro s n h
    rw [chunkRanges]
    by_cases hc : s < n ∧ 0 < b
    · rw [dif_pos hc, List.flatten_cons, IH (s + b) n (by omega)]
      rcases le_or_lt (s + b) n with h2 | h2
      · rw [min_eq_left h2]
        have happ := List.range'_append s b (n - (s + b)) 1
        rw [one_mul] at happ
        rw [show s + b - s = b by omega, show n - s = n - (s + b) + b by omega]
        exact happ
      · rw [min_eq_right (le_of_lt h2)]
        rw [show n - (s + b) = 0 by omega]
        simp
    · rw [dif_neg hc]
      rw [show n - s = 0 by omega]
      rfl

/-- The batched outer loop of `add` enumerates exactly the ids `0, …, N-1`
in order. -/
theorem chunkRanges_flatten (b N : ℕ) (hb : 0 < b) :
    (chunkRanges b 0 N).flatten = List.range N := by
  rw [chunkRanges_flatten_aux b hb N 0 N (by omega), Nat.sub_zero,
    List.range_eq_range']

/-- The inverted list of pair `p` after `train` + `add` holds exactly the
ids assigned to `p`, in ascending id order. -/
theorem addAll_apply (assign : ℕ → ℕ × ℕ) (N batchSize : ℕ)
    (hb : 0 < batchSize) (p : ℕ × ℕ) :
    addAll assign N batchSize p =
      (List.range N).filter (fun v => decide (assign v = p)) := by
  rw [addAll, foldl_addLoop, chunkRanges_flatten batchSize N hb,
    List.nil_append]

theorem getD_set_self {α : Type} {l : List α} {i : ℕ} (h : i < l.length)
    (a d : α) : (l.set i a).getD i d = a := by
  rw [List.getD_eq_getElem?_getD, List.getElem?_set_self h]
  rfl

theorem getD_set_ne {α : Type} {l : List α} {i j : ℕ} (h : i ≠ j)
    (a d : α) : (l.set i a).getD j d = l.getD j d := by
  rw [List.getD_eq_getElem?_getD, List.getElem?_set_ne h,
    ← List.getD_eq_getElem?_getD]

/-- Invariant of the serialisation fold of `restructure_pickle`: when the
items processed so far occupy record numbers `pos, pos + 1, …` in order, the
fold appends the id lists in item order and fills the matching offset
records with the running start and the list length, leaving every other
record untouched. -/
theorem restructure_fold (xs : List ((ℕ × ℕ) × List ℕ)) :
    ∀ (pos : ℕ) (c0 : List ℕ) (off : List (ℕ × ℕ)),
      (∀ t, t < xs.length →
        (xs.getD t ((0, 0), [])).1.1 * 256 + (xs.getD t ((0, 0), [])).1.2 =
          pos + t) →
      pos + xs.length ≤ off.length →
      (xs.foldl restructureStep (c0, off)).1 =
        c0 ++ (xs.map Prod.snd).flatten ∧
      (xs.foldl restructureStep (c0, off)).2.length = off.length ∧
      (∀ q, q < pos ∨ pos + xs.length ≤ q →
        (xs.foldl restructureStep (c0, off)).2.getD q (0, 0) =
          off.getD q (0, 0)) ∧
      (∀ t, t < xs.length →
        (xs.foldl restructureStep (c0, off)).2.getD (pos + t) (0, 0) =
          (c0.length + (((xs.map Prod.snd).take t).map List.length).sum,
            (xs.getD t ((0, 0), [])).2.length)) := by
  induction xs with
  | nil =>
    intro pos c0 off _ _
    refine ⟨by simp, rfl, ?_, ?_⟩
    · intro q _
      rfl
    · intro t ht
      simp at ht
  | cons x xs IH =>
    intro pos c0 off hkeys hlen
    have hk0 : x.1.1 * 256 + x.1.2 = pos := by
      have h := hkeys 0 (by simp)
      simpa using h
    rw [List.foldl_cons]
    have hstep : restructureStep (c0, off) x =
        (c0 ++ x.2, off.set pos (c0.length, x.2.length)) := by
      rw [restructureStep, hk0]
    rw [hstep]
    have hkeys2 : ∀ t, t < xs.length →
        (xs.getD t ((0, 0), [])).1.1 * 256 + (xs.getD t ((0, 0), [])).1.2 =
          (pos + 1) + t := by
      intro t ht
      have h := hkeys (t + 1) (by simp only [List.length_cons]; omega)
      rw [List.getD_cons_succ] at h
      omega
    have hlen2 : (pos + 1) + xs.length ≤
        (off.set pos (c0.length, x.2.length)).length := by
      rw [List.length_set]
      rw [List.length_cons] at hlen
      omega
    obtain ⟨IH1, IH2, IH3, IH4⟩ :=
      IH (pos + 1) (c0 ++ x.2) (off.set pos (c0.length, x.2.length))
        hkeys2 hlen2
    have hposlt : pos < off.length := by
      rw [List.length_cons] at hlen
      omega
    refine ⟨?_, ?_, ?_, ?_⟩
    · rw [IH1, List.map_cons, List.flatten_cons, List.append_assoc]
    · rw [IH2, List.length_set]
    · intro q hq
      rcases hq with hq | hq
      · rw [IH3 q (Or.inl (by omega))]
        exact getD_set_ne (by omega) _ _
      · rw [List.length_cons] at hq
        rw [IH3 q (Or.inr (by omega))]
        exact getD_set_ne (by omega) _ _
    · intro t ht
      cases t with
      | zero =>
        rw [Nat.add_zero, IH3 pos (Or.inl (by omega)),
          getD_set_self hposlt]
        simp
      | succ t =>
        rw [List.length_cons] at ht
        have h4 := IH4 t (by omega)
        rw [show pos + (t + 1) = (pos + 1) + t by omega, h4]
        simp only [List.map_cons, List.take_succ_cons, List.sum_cons,
          List.getD_cons_succ, List.length_append, Prod.mk.injEq]
        exact ⟨by omega, trivial⟩

/-- Entry `k` of the row-major grid flatten, for `k < A * B`. -/
theorem grid_flatten_getD {β : Type} (g : ℕ → ℕ → β) (d : β) (B : ℕ) :
    ∀ (A s k : ℕ), k < A * B →
      ((((List.range' s A).map
        (fun i => (List.range B).map (fun j => g i j))).flatten).getD k d)
        = g (s + k / B) (k % B) := by
  intro A
  induction A with
  | zero =>
    intro s k hk
    simp at hk
  | succ A IH =>
    intro s k hk
    have hB : 0 < B := by
      rcases Nat.eq_zero_or_pos B with rfl | h
      · simp at hk
      · exact h
    rw [List.range'_succ, List.map_cons, List.flatten_cons]
    rcases lt_or_le k B with hc | hc
    · have hlm : k < ((List.range B).map (fun j => g s j)).length := by
        rw [List.length_map, List.length_range]
        exact hc
      rw [List.getD_append _ _ _ _ hlm, Nat.div_eq_of_lt hc,
        Nat.mod_eq_of_lt hc, Nat.add_zero]
      have hmap : ((List.range B).map (fun j => g s j)).getD k (g s 0) =
          g s ((List.range B).getD k 0) :=
        List.getD_map _ 0 _
      rw [getD_indep hlm d (g s 0), hmap]
      congr 1
      rw [List.getD_eq_getElem?_getD,
        List.getElem?_eq_getElem (by rw [List.length_range]; exact hc),
        List.getElem_range]
      rfl
    · have hlm : ((List.range B).map (fun j => g s j)).length ≤ k := by
        rw [List.length_map, List.length_range]
        exact hc
      rw [List.getD_append_right _ _ _ _ hlm, List.length_map,
        List.length_range]
      have hrec : k - B < A * B := by
        have hx : (A + 1) * B = A * B + B := by ring
        omega
      rw [IH (s + 1) (k - B) hrec]
      obtain ⟨m, rfl⟩ := Nat.exists_eq_add_of_le hc
      have e1 : B + m - B = m := by omega
      have e2 : (B + m) / B = m / B + 1 := by
        rw [Nat.add_comm, Nat.add_div_right _ hB]
      have e3 : (B + m) % B = m % B := Nat.add_mod_left B m
      rw [e1, e2, e3]
      congr 1
      omega

/-- Record `k` of the lexicographic key grid is the pair
`(k / 256, k % 256)`. -/
theorem lexKeys_getD :
    ∀ k, k < 256 * 256 → lexKeys.getD k (0, 0) = (k / 256, k % 256) := by
  intro k hk
  have hrw : lexKeys = ((List.range' 0 256).map
      (fun i => (List.range 256).map (fun j => (i, j)))).flatten := by
    rw [lexKeys, List.range_eq_range']
  rw [hrw, grid_flatten_getD (fun i j => (i, j)) (0, 0) 256 256 0 k hk,
    Nat.zero_add]

/-- The pruner discards everything when `pruning_factor = 1`:
`keep_count = min(1, n) - 1 = 0`. -/
theorem prunedPairs_one (clusterPairs : List (ℕ × ℕ)) (repDist : ℕ × ℕ → ℚ) :
    prunedPairs clusterPairs repDist 1 = [] := by
  rw [prunedPairs]
  have h0 : min 1 clusterPairs.length - 1 = 0 := by omega
  simp only [h0, selectSmallest_zero, List.map_nil]

/-- With an empty pruned pair set, the whole downstream pipeline of `search`
produces the empty result. -/
theorem search_empty_of_pruned_empty (d1 d2 : List ℚ) (repDist : ℕ × ℕ → ℚ)
    (score : ℕ → ℚ) (invList : ℕ × ℕ → List ℕ)
    (topK nprobe maxDifference batchLimit pruningFactor : ℕ)
    (hpr : prunedPairs (planPairs d1 d2 nprobe) repDist pruningFactor = []) :
    search d1 d2 repDist score invList topK nprobe maxDifference batchLimit
      pruningFactor = ([], []) := by
  rw [search, searchBatchOutputs]
  simp only [hpr, List.map_nil, List.flatten_nil, List.insertionSort,
    batchNumbers_nil, searchCollect, List.flatten_nil, mergeTopK_nil]

/-! Claim theorems. -/

/-- C1 counterexample: at `C = 3` (subspace distance rows of length 3),
`nprobe = 2` — satisfying `0 < nprobe` and `nprobe² < C²` — the planner
output is not the `nprobe²` best centroid pairs in D-ascending, tie-by-flat
order, because the flat positions are decoded through the hard-coded 256
grid: the pair list contains `(0, 3)`, which is not even a valid pair for
`C = 3`, instead of the claimed `(1, 0)`. -/
theorem planner_decode_counterexample :
    (0 < 2 ∧ 2 * 2 < ([0, 1, 2] : List ℚ).length * ([0, 1, 2] : List ℚ).length) ∧
    planPairs [0, 1, 2] [0, 1, 2] 2 = [(0, 0), (0, 1), (0, 3), (0, 2)] ∧
    planPairs [0, 1, 2] [0, 1, 2] 2 ≠ [(0, 0), (0, 1), (1, 0), (0, 2)] ∧
    (0, 3) ∈ planPairs [0, 1, 2] [0, 1, 2] 2 ∧
    ¬ ((0, 3) : ℕ × ℕ).2 < ([0, 1, 2] : List ℚ).length := by
  norm_num [planPairs, planFlats, selectSmallest, takeSmallest, stableSort,
    flatD, keyLe, pairDecode, List.insertionSort, List.orderedInsert,
    List.enum, List.enumFrom]

/-- C1 (amended): for every query (given through its per-subspace centroid
distance rows `d1`, `d2`) and every positive `nprobe` with
`nprobe² < C₁·C₂`, the planner selects exactly the `nprobe²` flat grid
positions with the smallest combined distance `D[f] = d1[f / C₂] + d2[f % C₂]`,
ordered by ascending value with ties towards the smaller flat position, and
maps each selected flat position `f` to the pair `(f / 256, f % 256)` of the
hard-coded grid — which coincides with the true pair `(f / C, f % C)`
exactly when the index was built with `C = 256`. -/
theorem planner_selects_smallest_flats (d1 d2 : List ℚ) (nprobe : ℕ)
    (_hn : 0 < nprobe) (hk : nprobe * nprobe < d1.length * d2.length) :
    planPairs d1 d2 nprobe = (planFlats d1 d2 nprobe).map pairDecode ∧
    (planFlats d1 d2 nprobe).length = nprobe * nprobe ∧
    (planFlats d1 d2 nprobe).Pairwise (fun f g =>
      (flatD d1 d2).getD f 0 < (flatD d1 d2).getD g 0 ∨
        ((flatD d1 d2).getD f 0 = (flatD d1 d2).getD g 0 ∧ f < g)) ∧
    (∀ f ∈ planFlats d1 d2 nprobe, f < d1.length * d2.length) ∧
    (∀ f ∈ planFlats d1 d2 nprobe, ∀ g < d1.length * d2.length,
      g ∉ planFlats d1 d2 nprobe →
        (flatD d1 d2).getD f 0 < (flatD d1 d2).getD g 0 ∨
          ((flatD d1 d2).getD f 0 = (flatD d1 d2).getD g 0 ∧ f < g)) ∧
    (∀ f, f < d1.length * d2.length →
      (flatD d1 d2).getD f 0 =
        d1.getD (f / d2.length) 0 + d2.getD (f % d2.length) 0) ∧
    (d2.length = 256 →
      planPairs d1 d2 nprobe =
        (planFlats d1 d2 nprobe).map (fun f => (f / d2.length, f % d2.length))) := by
  refine ⟨rfl, ?_, ?_, ?_, ?_, flatD_getD d1 d2, ?_⟩
  · rw [planFlats, selectSmallest_length, flatD_length]
    omega
  · exact selectSmallest_pairwise _ _
  · intro f hf
    have := selectSmallest_mem_lt hf
    rwa [flatD_length] at this
  · intro f hf g hg hgn
    exact selectSmallest_complete _ _ hf (by rwa [flatD_length]) hgn
  · intro h2
    rw [h2]
    rfl

theorem planner_selects_smallest_flats_witness :
    0 < 1 ∧ 1 * 1 < ([0, 1] : List ℚ).length * ([0, 1] : List ℚ).length ∧
    (planFlats [0, 1] [0, 1] 1).length = 1 * 1 :=
  ⟨by decide, by decide,
    (planner_selects_smallest_flats [0, 1] [0, 1] 1 (by decide) (by decide)).2.1⟩

/-- C2 counterexample: a planner output of `nprobe² = 4` pairs together with
`pruning_factor = 6 ≥ 1` retains `min(6, 4) − 1 = 3` pairs, not the claimed
`pruning_factor − 1 = 5`. -/
theorem pruner_count_counterexample :
    (planPairs [0, 1, 2] [0, 1, 2] 2).length = 2 * 2 ∧
    (prunedPairs (planPairs [0, 1, 2] [0, 1, 2] 2)
      (fun p => (p.1 * 10 + p.2 : ℚ)) 6).length = 3 ∧
    (3 : ℕ) ≠ 6 - 1 := by
  norm_num [prunedPairs, planPairs, planFlats, selectSmallest, takeSmallest,
    stableSort, flatD, keyLe, pairDecode, List.insertionSort,
    List.orderedInsert, List.enum, List.enumFrom, List.getD]

/-- C2 (amended): for every planner output and every `pruning_factor ≥ 1`,
the representative pruner retains exactly
`min(pruning_factor, nprobe²) − 1` pairs — the ones whose representative
vector is closest to the query (ties towards the earlier planner position) —
ordered by ascending representative distance; when `pruning_factor = 1` it
keeps zero pairs and `search` returns the empty result. -/
theorem pruner_keeps_min_pruning_minus_one (cp : List (ℕ × ℕ))
    (rd : ℕ × ℕ → ℚ) (pf : ℕ) (hpf : 1 ≤ pf) (hcp : 1 ≤ cp.length) :
    (prunedPairs cp rd pf).length = min pf cp.length - 1 ∧
    prunedPairs cp rd pf =
      (selectSmallest (cp.map rd) (min pf cp.length - 1)).map
        (fun i => cp.getD i (0, 0)) ∧
    (prunedPairs cp rd pf).Pairwise (fun p q => rd p ≤ rd q) ∧
    (∀ i ∈ selectSmallest (cp.map rd) (min pf cp.length - 1),
      ∀ j, j < cp.length →
        j ∉ selectSmallest (cp.map rd) (min pf cp.length - 1) →
          rd (cp.getD i (0, 0)) < rd (cp.getD j (0, 0)) ∨
            (rd (cp.getD i (0, 0)) = rd (cp.getD j (0, 0)) ∧ i < j)) ∧
    (pf = 1 → prunedPairs cp rd pf = []) ∧
    (∀ (d1 d2 : List ℚ) (rd2 : ℕ × ℕ → ℚ) (score : ℕ → ℚ)
      (invList : ℕ × ℕ → List ℕ) (topK nprobe maxDifference batchLimit : ℕ),
      pf = 1 →
        search d1 d2 rd2 score invList topK nprobe maxDifference batchLimit
          pf = ([], [])) := by
  have hgetD : ∀ i, i < cp.length →
      (cp.map rd).getD i 0 = rd (cp.getD i (0, 0)) := by
    intro i hi
    have hmap := List.getD_map cp (0, 0) rd (n := i)
    rw [getD_indep (by rwa [List.length_map]) 0 (rd (0, 0)), hmap]
  refine ⟨?_, rfl, ?_, ?_, ?_, ?_⟩
  · rw [prunedPairs]
    simp only [List.length_map, selectSmallest_length]
    omega
  · rw [prunedPairs]
    simp only [List.pairwise_map]
    refine (selectSmallest_pairwise (cp.map rd)
      (min pf cp.length - 1)).imp_of_mem ?_
    intro a b ha hb hab
    have hal : a < cp.length := by
      have := selectSmallest_mem_lt ha
      rwa [List.length_map] at this
    have hbl : b < cp.length := by
      have := selectSmallest_mem_lt hb
      rwa [List.length_map] at this
    rcases hab with h | ⟨e, _⟩
    · rw [hgetD a hal, hgetD b hbl] at h
      exact le_of_lt h
    · rw [hgetD a hal, hgetD b hbl] at e
      exact le_of_eq e
  · intro i hi j hj hjn
    have hil : i < cp.length := by
      have := selectSmallest_mem_lt hi
      rwa [List.length_map] at this
    have hres := selectSmallest_complete (cp.map rd) (min pf cp.length - 1)
      hi (by rwa [List.length_map]) hjn
    rcases hres with h | ⟨e, p⟩
    · exact Or.inl (by rwa [hgetD i hil, hgetD j hj] at h)
    · exact Or.inr ⟨by rwa [hgetD i hil, hgetD j hj] at e, p⟩
  · intro h
    subst h
    exact prunedPairs_one cp rd
  · intro d1 d2 rd2 score invList topK nprobe maxDifference batchLimit h
    subst h
    exact search_empty_of_pruned_empty d1 d2 rd2 score invList topK nprobe
      maxDifference batchLimit 1 (prunedPairs_one _ _)

theorem pruner_keeps_min_pruning_minus_one_witness :
    1 ≤ 2 ∧ 1 ≤ ([((0 : ℕ), (0 : ℕ)), (0, 1)] : List (ℕ × ℕ)).length ∧
    (prunedPairs [((0 : ℕ), (0 : ℕ)), (0, 1)] (fun _ => (0 : ℚ)) 2).length =
      min 2 ([((0 : ℕ), (0 : ℕ)), (0, 1)] : List (ℕ × ℕ)).length - 1 :=
  ⟨by decide, by decide,
    (pruner_keeps_min_pruning_minus_one [((0 : ℕ), (0 : ℕ)), (0, 1)]
      (fun _ => (0 : ℚ)) 2 (by decide) (by decide)).1⟩

/-- C3 (code-bug exhibit): with `nprobe = 1` the planner emits exactly one
centroid pair, but for every `pruning_factor ≥ 1` the pruner's
`keep_count = min(pruning_factor, 1) − 1 = 0` discards it — the pruned pair
list is empty, no inverted list is gathered or scored, and `search` returns
the empty result for every query; the claim (and spec) say the pair
survives. -/
theorem nprobe_one_pair_always_pruned (d1 d2 : List ℚ)
    (repDist : ℕ × ℕ → ℚ) (pruningFactor : ℕ)
    (hpf : 1 ≤ pruningFactor) (hC : 1 * 1 < d1.length * d2.length) :
    (planPairs d1 d2 1).length = 1 ∧
    prunedPairs (planPairs d1 d2 1) repDist pruningFactor = [] ∧
    (∀ (score : ℕ → ℚ) (invList : ℕ × ℕ → List ℕ)
      (topK maxDifference batchLimit : ℕ),
      search d1 d2 repDist score invList topK 1 maxDifference batchLimit
        pruningFactor = ([], [])) := by
  have hlen : (planPairs d1 d2 1).length = 1 := by
    rw [planPairs, List.length_map, planFlats, selectSmallest_length,
      flatD_length]
    omega
  have hpruned : prunedPairs (planPairs d1 d2 1) repDist pruningFactor = [] := by
    rw [prunedPairs]
    simp only [hlen]
    rw [show min pruningFactor 1 - 1 = 0 by omega, selectSmallest_zero,
      List.map_nil]
  exact ⟨hlen, hpruned, fun score invList topK maxDifference batchLimit =>
    search_empty_of_pruned_empty d1 d2 repDist score invList topK 1
      maxDifference batchLimit pruningFactor hpruned⟩

theorem nprobe_one_pair_always_pruned_witness :
    1 ≤ 2250 ∧ 1 * 1 < ([0, 1] : List ℚ).length * ([0, 1] : List ℚ).length ∧
    prunedPairs (planPairs [0, 1] [0, 1] 1) (fun _ => (0 : ℚ)) 2250 = [] :=
  ⟨by decide, by decide,
    (nprobe_one_pair_always_pruned [0, 1] [0, 1] (fun _ => (0 : ℚ)) 2250
      (by decide) (by decide)).2.1⟩

/-- C4 counterexample: on the candidate multiset `{(1, 5), (1, 2)}` arriving
in that order with `K = 3`, the merger returns ids `[5, 2]` — ties are kept
in arrival order, not broken towards the smaller id — and the output length
is 2, not `K = 3`. -/
theorem merger_tie_and_length_counterexample :
    mergeTopK 3 [((1 : ℚ), 5), (1, 2)] = [(1, 5), (1, 2)] ∧
    (mergeTopK 3 [((1 : ℚ), 5), (1, 2)]).map Prod.snd ≠ [2, 5] ∧
    (mergeTopK 3 [((1 : ℚ), 5), (1, 2)]).length ≠ 3 := by
  decide

/-- C4 (amended): the global merger returns the `min(K, n)` scored pairs
that are smallest under (distance, arrival position) — so equal distances
keep their arrival order rather than being re-broken by smaller id — in
ascending distance order, and the result is split into two parallel arrays
of that common length. -/
theorem merger_returns_smallest_by_distance_arrival (topK : ℕ)
    (cands : List (ℚ × ℕ)) :
    mergeTopK topK cands =
      (takeSmallest Prod.fst cands topK).map Prod.snd ∧
    (mergeTopK topK cands).length = min topK cands.length ∧
    (mergeTopK topK cands).Pairwise (fun a b => a.1 ≤ b.1) ∧
    (∀ x ∈ takeSmallest Prod.fst cands topK, x ∈ cands.enum) ∧
    (∀ x ∈ takeSmallest Prod.fst cands topK,
      ∀ y ∈ (stableSort Prod.fst cands).drop topK,
        x.2.1 < y.2.1 ∨ (x.2.1 = y.2.1 ∧ x.1 < y.1)) ∧
    searchCollect [cands] topK =
      ((mergeTopK topK cands).map Prod.fst,
        (mergeTopK topK cands).map Prod.snd) := by
  refine ⟨rfl, mergeTopK_length topK cands, mergeTopK_dist_sorted topK cands,
    ?_, ?_, ?_⟩
  · intro x hx
    exact takeSmallest_subset_enum hx
  · intro x hx y hy
    have hle := takeSmallest_le_drop Prod.fst cands topK x hx y hy
    have hnd := stableSort_fst_nodup Prod.fst cands
    rw [List.Nodup, List.pairwise_map,
      ← List.take_append_drop topK (stableSort Prod.fst cands),
      List.pairwise_append] at hnd
    have hne : x.1 ≠ y.1 := hnd.2.2 x hx y hy
    exact keyLt_of_keyLe_of_fst_ne hle hne
  · rw [searchCollect]
    simp only [List.flatten_cons, List.flatten_nil, List.append_nil]

theorem merger_returns_smallest_by_distance_arrival_witness :
    (mergeTopK 1 [((1 : ℚ), 5)]).length =
      min 1 ([((1 : ℚ), 5)] : List (ℚ × ℕ)).length :=
  (merger_returns_smallest_by_distance_arrival 1 [((1 : ℚ), 5)]).2.1

/-- C5 counterexample: with sorted ids `[0, 10]` and
`max_difference = 10`, the first batch is `[0, 10]` — NumPy
`searchsorted(..., side="right")` keeps ids equal to
`S[start] + max_difference` — although `10` is outside the claimed
half-open interval `[0, 0 + 10)`; the claimed batching `[[0], [10]]` is not
produced. -/
theorem batch_interval_counterexample :
    batchNumbers 10 [0, 10] 2 = [[0, 10]] ∧
    10 ∈ (batchNumbers 10 [0, 10] 2).getD 0 [] ∧
    ¬ (10 < 0 + 10) ∧
    batchNumbers 10 [0, 10] 2 ≠ [[0], [10]] := by
  decide

/-- C5 (amended): for every sorted candidate id sequence and positive
`max_difference` and `batch_limit`, each emitted batch is the maximal run
whose ids lie in the closed interval `[S[start], S[start] + max_difference]`
(the code keeps ids equal to the right endpoint); at most `batch_limit`
batches are emitted per query — their concatenation is a prefix of the
input — each batch is nonempty, the first id after a batch exceeds that
batch's right endpoint, and ids are dropped (silently, not as an error)
only when the batch cap is reached. -/
theorem batching_policy (s : List ℕ) (maxd L : ℕ)
    (hsorted : List.Sorted (fun a b => a ≤ b) s)
    (_hmd : 0 < maxd) (_hL : 0 < L) :
    (batchNumbers maxd s L).length ≤ L ∧
    (∃ tail, (batchNumbers maxd s L).flatten ++ tail = s) ∧
    (∀ b ∈ batchNumbers maxd s L, b ≠ []) ∧
    (∀ b ∈ batchNumbers maxd s L, ∀ x ∈ b,
      b.head! ≤ x ∧ x ≤ b.head! + maxd) ∧
    (batchNumbers maxd s L).Chain'
      (fun b b2 => b.head! + maxd < b2.head!) ∧
    ((batchNumbers maxd s L).length < L →
      (batchNumbers maxd s L).flatten = s) :=
  batchNumbers_spec maxd L s hsorted

theorem batching_policy_witness :
    List.Sorted (fun a b => a ≤ b) [0, 10] ∧ 0 < 10 ∧ 0 < 2 ∧
    (batchNumbers 10 [0, 10] 2).length ≤ 2 :=
  ⟨by decide, by decide, by decide,
    (batching_policy [0, 10] 10 2 (by decide) (by decide) (by decide)).1⟩

/-- C6 counterexample: a fixed query, index state and parameter tuple whose
two scored batches tie in distance; collecting the batch outputs in the two
possible worker completion orders yields different id arrays, so `search` is
not independent of the order in which the pool completes the batches. -/
theorem completion_order_counterexample :
    searchBatchOutputs [0, 1, 10] [0, 1, 10] (fun p => (p.1 * 10 + p.2 : ℚ))
      (fun _ => 1)
      (fun p => if p = (0, 0) then [0] else if p = (0, 1) then [20001] else [])
      1 2 10000 2000 3 = [[(1, 0)], [(1, 20001)]] ∧
    ([[((1 : ℚ), 20001)], [(1, 0)]]).Perm [[((1 : ℚ), 0)], [(1, 20001)]] ∧
    searchCollect [[((1 : ℚ), 20001)], [(1, 0)]] 1 ≠
      searchCollect [[((1 : ℚ), 0)], [(1, 20001)]] 1 := by
  refine ⟨?_, ?_, ?_⟩
  · norm_num [searchBatchOutputs, prunedPairs, planPairs, planFlats,
      selectSmallest, takeSmallest, stableSort, flatD, keyLe, pairDecode,
      List.insertionSort, List.orderedInsert, List.enum, List.enumFrom,
      List.getD, batchNumbers, processBatch]
  · exact List.Perm.swap _ _ _
  · decide

/-- C6 (amended): `search` is a pure function of (query, index, parameters,
batch completion order) — its fan-in is `searchCollect` over the batch
outputs in completion order — and whenever all scored candidate distances
are pairwise distinct the result is additionally independent of the
completion order; only tied distances make the returned ids depend on the
order in which the worker pool completes the batches. -/
theorem search_deterministic_modulo_ties (topK : ℕ)
    {bo1 bo2 : List (List (ℚ × ℕ))} (hp : bo1.Perm bo2)
    (hd : (bo1.flatten.map Prod.fst).Nodup) :
    searchCollect bo1 topK = searchCollect bo2 topK ∧
    (∀ (d1 d2 : List ℚ) (repDist : ℕ × ℕ → ℚ) (score : ℕ → ℚ)
      (invList : ℕ × ℕ → List ℕ)
      (nprobe maxDifference batchLimit pruningFactor : ℕ),
      search d1 d2 repDist score invList topK nprobe maxDifference
        batchLimit pruningFactor =
        searchCollect (searchBatchOutputs d1 d2 repDist score invList topK
          nprobe maxDifference batchLimit pruningFactor) topK) :=
  ⟨searchCollect_perm_of_nodup topK hp hd,
    fun _ _ _ _ _ _ _ _ _ => rfl⟩

theorem search_deterministic_modulo_ties_witness :
    ([[((1 : ℚ), 5)], [(2, 7)]] : List (List (ℚ × ℕ))).Perm
      [[((2 : ℚ), 7)], [(1, 5)]] ∧
    (([[((1 : ℚ), 5)], [(2, 7)]] : List (List (ℚ × ℕ))).flatten.map
      Prod.fst).Nodup ∧
    searchCollect [[((1 : ℚ), 5)], [(2, 7)]] 1 =
      searchCollect [[((2 : ℚ), 7)], [(1, 5)]] 1 :=
  ⟨by decide, by decide,
    (search_deterministic_modulo_ties 1 (by decide) (by decide)).1⟩

/-- C7: after `train` (which creates empty lists) and `add` over `N`
vectors in batches, every id `v < N` appears in exactly one inverted list —
the list of its assigned pair, whose two components are the nearest side-1
and side-2 centroids under the (abstracted) cosine distance rows with ties
broken towards the lowest centroid index — and every inverted list is
sorted in strictly ascending id order. -/
theorem train_add_inverted_list_invariant (dist1 dist2 : ℕ → ℕ → ℚ)
    (C N batchSize : ℕ) (hC : 0 < C) (hb : 0 < batchSize) :
    (∀ p, addAll (assignPair dist1 dist2 C) N batchSize p =
      (List.range N).filter
        (fun v => decide (assignPair dist1 dist2 C v = p))) ∧
    (∀ v, v < N →
      v ∈ addAll (assignPair dist1 dist2 C) N batchSize
        (assignPair dist1 dist2 C v)) ∧
    (∀ v p, v ∈ addAll (assignPair dist1 dist2 C) N batchSize p →
      v < N ∧ p = assignPair dist1 dist2 C v) ∧
    (∀ p, List.Sorted (fun a b => a < b)
      (addAll (assignPair dist1 dist2 C) N batchSize p)) ∧
    (∀ v, (assignPair dist1 dist2 C v).1 < C ∧
      (assignPair dist1 dist2 C v).2 < C ∧
      (∀ j < C, dist1 v (assignPair dist1 dist2 C v).1 ≤ dist1 v j) ∧
      (∀ j < (assignPair dist1 dist2 C v).1,
        dist1 v (assignPair dist1 dist2 C v).1 < dist1 v j) ∧
      (∀ j < C, dist2 v (assignPair dist1 dist2 C v).2 ≤ dist2 v j) ∧
      (∀ j < (assignPair dist1 dist2 C v).2,
        dist2 v (assignPair dist1 dist2 C v).2 < dist2 v j)) := by
  have happ := addAll_apply (assignPair dist1 dist2 C) N batchSize hb
  refine ⟨happ, ?_, ?_, ?_, ?_⟩
  · intro v hv
    rw [happ]
    rw [List.mem_filter, List.mem_range]
    exact ⟨hv, by simp⟩
  · intro v p hv
    rw [happ, List.mem_filter, List.mem_range] at hv
    exact ⟨hv.1, (of_decide_eq_true hv.2).symm⟩
  · intro p
    rw [happ]
    exact (List.sorted_lt_range N).filter _
  · intro v
    obtain ⟨h1a, h1b, h1c⟩ := argminIdx_spec (dist1 v) C hC
    obtain ⟨h2a, h2b, h2c⟩ := argminIdx_spec (dist2 v) C hC
    exact ⟨h1a, h2a, h1b, h1c, h2b, h2c⟩

theorem train_add_inverted_list_invariant_witness :
    0 < 1 ∧ 0 < 1 ∧
    0 ∈ addAll (assignPair (fun _ _ => (0 : ℚ)) (fun _ _ => (0 : ℚ)) 1) 2 1
      (assignPair (fun _ _ => (0 : ℚ)) (fun _ _ => (0 : ℚ)) 1 0) :=
  ⟨by decide, by decide,
    (train_add_inverted_list_invariant (fun _ _ => (0 : ℚ))
      (fun _ _ => (0 : ℚ)) 1 2 1 (by decide) (by decide)).2.1 0 (by decide)⟩

/-- C8: on every filesystem state — whether or not the index file exists —
`build_index` returns the handle itself with the centroid and inverted-list
fields unchanged and performs no effect at all: no `train`, no `add`, no
`save_index`, no file read or write (the build body after the early
`return self` is unreachable). -/
theorem build_index_is_noop (self : IMIIndexHandle)
    (indexFileExists : Bool) :
    build_index self indexFileExists = (self, []) ∧
    (build_index self indexFileExists).1.centroids1 = self.centroids1 ∧
    (build_index self indexFileExists).1.centroids2 = self.centroids2 ∧
    (build_index self indexFileExists).1.indexInvertedLists =
      self.indexInvertedLists ∧
    (build_index self indexFileExists).2 = [] := by
  cases indexFileExists <;> exact ⟨rfl, rfl, rfl, rfl, rfl⟩

/-- C9: when the in-memory mapping is enumerated with the full lexicographic
key grid (the dict insertion order produced by `train`), `restructure_pickle`
writes an offset table of exactly `256² = C²` records; record `k` describes
the pair `(k / 256, k % 256)` and holds `(start, length)` where `start` is
the total length of all earlier lists; the id file is the concatenation of
the inverted lists in lexicographic key order; `start[0] = 0` and
`start[k+1] = start[k] + length[k]`. -/
theorem restructure_serialisation_layout
    (items : List ((ℕ × ℕ) × List ℕ))
    (hkeys : items.map Prod.fst = lexKeys) :
    (restructurePickle items).2.length = 256 * 256 ∧
    (restructurePickle items).1 = (items.map Prod.snd).flatten ∧
    (∀ k, k < 256 * 256 →
      (restructurePickle items).2.getD k (0, 0) =
        ((((items.map Prod.snd).take k).map List.length).sum,
          ((items.map Prod.snd).getD k []).length)) ∧
    (∀ k, k < 256 * 256 →
      (items.map Prod.fst).getD k (0, 0) = (k / 256, k % 256)) ∧
    ((restructurePickle items).2.getD 0 (0, 0)).1 = 0 ∧
    (∀ k, k + 1 < 256 * 256 →
      ((restructurePickle items).2.getD (k + 1) (0, 0)).1 =
        ((restructurePickle items).2.getD k (0, 0)).1 +
          ((restructurePickle items).2.getD k (0, 0)).2) := by
  have hlex : lexKeys.length = 256 * 256 := by
    rw [lexKeys, List.length_flatten, List.map_map]
    have hcomp : (List.length ∘ fun i => (List.range 256).map
        (fun j => ((i, j) : ℕ × ℕ))) = fun _ => 256 := by
      funext i
      simp
    rw [hcomp, List.map_const', List.sum_replicate, List.length_range,
      smul_eq_mul]
  have hitems : items.length = 256 * 256 := by
    have := congrArg List.length hkeys
    rwa [List.length_map, hlex] at this
  have hcond : ∀ t, t < items.length →
      (items.getD t ((0, 0), [])).1.1 * 256 +
        (items.getD t ((0, 0), [])).1.2 = 0 + t := by
    intro t ht
    have hfst : (items.getD t ((0, 0), [])).1 =
        (items.map Prod.fst).getD t (0, 0) :=
      (List.getD_map items ((0, 0), []) Prod.fst).symm
    rw [hfst, hkeys, lexKeys_getD t (by omega)]
    have := Nat.div_add_mod t 256
    omega
  obtain ⟨F1, F2, F3, F4⟩ := restructure_fold items 0 []
    (List.replicate (256 * 256) (0, 0)) hcond
    (by rw [List.length_replicate]; omega)
  have hgetDk : ∀ k, k < 256 * 256 →
      (restructurePickle items).2.getD k (0, 0) =
        ((((items.map Prod.snd).take k).map List.length).sum,
          ((items.map Prod.snd).getD k []).length) := by
    intro k hk
    have h4 := F4 k (by omega)
    rw [Nat.zero_add] at h4
    rw [restructurePickle, h4, List.length_nil, Nat.zero_add]
    have hsnd : (items.getD k ((0, 0), [])).2 =
        (items.map Prod.snd).getD k [] :=
      (List.getD_map items ((0, 0), []) Prod.snd).symm
    rw [hsnd]
  refine ⟨?_, ?_, hgetDk, ?_, ?_, ?_⟩
  · rw [restructurePickle, F2, List.length_replicate]
  · rw [restructurePickle, F1, List.nil_append]
  · intro k hk
    rw [hkeys, lexKeys_getD k hk]
  · rw [hgetDk 0 (by omega)]
    simp
  · intro k hk
    rw [hgetDk k (by omega), hgetDk (k + 1) (by omega)]
    have hvlen : k < (items.map Prod.snd).length := by
      rw [List.length_map]
      omega
    rw [List.take_succ, List.getElem?_eq_getElem hvlen]
    simp only [Option.toList_some, List.map_append, List.sum_append,
      List.map_cons, List.map_nil, List.sum_cons, List.sum_nil,
      Nat.add_zero]
    rw [List.getD_eq_getElem?_getD, List.getElem?_eq_getElem hvlen]
    rfl

theorem restructure_serialisation_layout_witness :
    ((lexKeys.map (fun p => (p, ([] : List ℕ)))).map Prod.fst = lexKeys) ∧
    (restructurePickle (lexKeys.map (fun p => (p, ([] : List ℕ))))).2.length =
      256 * 256 := by
  have h : (lexKeys.map (fun p => (p, ([] : List ℕ)))).map Prod.fst =
      lexKeys := by
    rw [List.map_map]
    exact List.map_id lexKeys
  exact ⟨h, (restructure_serialisation_layout _ h).1⟩

/-- C10: the query path of `search` decodes flat grid positions through the
fixed `np.indices((256, 256))` grid — `pairDecode f = (f / 256, f % 256)` —
and `load_index_inverted_lists` computes the offset-table record number of
pair `(i, j)` as `i·256 + j`, both independently of the `nlist` value the
handle was constructed with; for every nondegenerate `C ≥ 2` these agree
with the C-based decode `(f / C, f % C)` and record number `i·C + j` on all
valid inputs exactly when `C = 256`. -/
theorem query_path_hardcodes_256 :
    (∀ (d1 d2 : List ℚ) (nprobe : ℕ), planPairs d1 d2 nprobe =
      (planFlats d1 d2 nprobe).map (fun f => (f / 256, f % 256))) ∧
    (∀ C, 2 ≤ C →
      ((∀ f, f < C * C → pairDecode f = (f / C, f % C)) ↔ C = 256)) ∧
    (∀ i j, recordIndex i j = i * 256 + j) ∧
    (∀ C, 2 ≤ C →
      ((∀ i j, i < C → j < C → recordIndex i j = i * C + j) ↔ C = 256)) := by
  refine ⟨fun _ _ _ => rfl, ?_, fun _ _ => rfl, ?_⟩
  · intro C hC
    constructor
    · intro hag
      by_contra hne
      have h2 : 2 * C ≤ C * C := Nat.mul_le_mul_right C hC
      rcases Nat.lt_or_ge C 256 with hlt | hge
      · have hf : C < C * C := by omega
        have hfst := congrArg Prod.fst (hag C hf)
        rw [pairDecode] at hfst
        simp only at hfst
        rw [Nat.div_eq_of_lt hlt, Nat.div_self (show 0 < C by omega)] at hfst
        exact absurd hfst (by decide)
      · have hgt : 256 < C := by omega
        have hf : 256 < C * C := by omega
        have hfst := congrArg Prod.fst (hag 256 hf)
        rw [pairDecode] at hfst
        simp only at hfst
        rw [Nat.div_eq_of_lt hgt,
          show (256 : ℕ) / 256 = 1 from by decide] at hfst
        exact absurd hfst (by decide)
    · intro h
      subst h
      intro f _
      rfl
  · intro C hC
    constructor
    · intro hag
      have h := hag 1 0 (by omega) (by omega)
      rw [recordIndex] at h
      omega
    · intro h
      subst h
      intro i j _ _
      rfl

theorem query_path_hardcodes_256_witness :
    2 ≤ 3 ∧
    ((∀ f, f < 3 * 3 → pairDecode f = (f / 3, f % 3)) ↔ 3 = 256) ∧
    ((∀ i j, i < 3 → j < 3 → recordIndex i j = i * 3 + j) ↔ 3 = 256) :=
  ⟨by decide, query_path_hardcodes_256.2.1 3 (by decide),
    query_path_hardcodes_256.2.2.2 3 (by decide)⟩

end IMI
